import Mathlib

/-!
Verification development for the merklytic-whitelist repository.

The offchain service (TypeScript, `src/offchain`) parses CSV whitelists,
builds an OpenZeppelin `StandardMerkleTree` over `(address, uint256)` rows,
and stores the root and per-leaf proofs in two DynamoDB tables through a
small adapter (`dynamoDbService.mts`).  The onchain contract
(`MerkleTreeWhitelist.sol`) verifies membership with OpenZeppelin
`MerkleProof.verify` (sorted-pair keccak, double-keccak leaf).

This file gives a shallow embedding of those parts and proves, or refutes,
the frozen specification claims about them.  Byte strings are `List Nat`
(one `Nat` per byte); `keccak256` and `abi.encode` are parameters of the
embedding, since every property proved here holds for an arbitrary hash
and encoder, and concrete instances are supplied in closed witnesses.
-/

namespace MerklyticWhitelist

/-- Byte strings, one natural number per byte. -/
abbrev Bytes := List Nat

/-! ## Byte comparison and the sorted pair hash

`compareBytes` embeds `compareBytes` of `@openzeppelin/merkle-tree`
(`src/bytes.ts`): compare byte-wise at the first differing position,
shorter array first on a common prefix. -/

/-- Lexicographic byte-wise comparison of two byte strings (OpenZeppelin
merkle-tree `compareBytes`). -/
def compareBytes : Bytes → Bytes → Ordering
  | [], [] => .eq
  | [], _ :: _ => .lt
  | _ :: _, [] => .gt
  | a :: as, b :: bs =>
      if a < b then .lt else if b < a then .gt else compareBytes as bs

theorem compareBytes_eq_iff (a b : Bytes) : compareBytes a b = .eq ↔ a = b := by
  induction a generalizing b with
  | nil => cases b <;> simp [compareBytes]
  | cons x xs ih =>
      cases b with
      | nil => simp [compareBytes]
      | cons y ys =>
          by_cases hxy : x < y
          · simp [compareBytes, hxy]
            omega
          · by_cases hyx : y < x
            · simp [compareBytes, hxy, hyx]
              omega
            · have hxy' : x = y := by omega
              simp [compareBytes, hxy, hyx, hxy', ih]

theorem compareBytes_swap (a b : Bytes) :
    compareBytes b a = (compareBytes a b).swap := by
  induction a generalizing b with
  | nil => cases b <;> simp [compareBytes, Ordering.swap]
  | cons x xs ih =>
      cases b with
      | nil => simp [compareBytes, Ordering.swap]
      | cons y ys =>
          by_cases hxy : x < y
          · have hyx : ¬ y < x := by omega
            simp [compareBytes, hxy, hyx, Ordering.swap]
          · by_cases hyx : y < x
            · simp [compareBytes, hxy, hyx, Ordering.swap]
            · simp [compareBytes, hxy, hyx, ih]

/-- Sorted concatenation of a pair of hashes, `(min, max)` by byte-wise
comparison: OpenZeppelin merkle-tree sorts `[a, b]` with `compareBytes`
before concatenation, and `MerkleProof.sol` orders `a < b ? (a,b) : (b,a)`. -/
def sortedPair (a b : Bytes) : Bytes :=
  if compareBytes a b = .gt then b ++ a else a ++ b

theorem sortedPair_comm (a b : Bytes) : sortedPair a b = sortedPair b a := by
  unfold sortedPair
  rcases h : compareBytes a b with hlt | heq | hgt
  · have h2 : compareBytes b a = .gt := by
      rw [compareBytes_swap, h]; rfl
    simp [h, h2]
  · have hab : a = b := (compareBytes_eq_iff a b).mp h
    subst hab
    simp
  · have h2 : compareBytes b a = .lt := by
      rw [compareBytes_swap, h]; rfl
    simp [h, h2]

/-- Hash of an ordered pair of child hashes: `keccak(sortedPair a b)`.
This is `hashPair` of OpenZeppelin merkle-tree and `Hashes.commutativeKeccak256`
used by `MerkleProof.verify` onchain. -/
def hashPair (keccak : Bytes → Bytes) (a b : Bytes) : Bytes :=
  keccak (sortedPair a b)

theorem hashPair_comm (keccak : Bytes → Bytes) (a b : Bytes) :
    hashPair keccak a b = hashPair keccak b a := by
  unfold hashPair
  rw [sortedPair_comm]

/-! ## The array-shaped Merkle tree of OpenZeppelin merkle-tree

`makeMerkleTree(leaves)` builds an array `tree` of length `2n - 1`:
leaf `i` is stored at `tree[2n - 2 - i]`, and every internal index
`i < n - 1` satisfies `tree[i] = hashPair(tree[2i+1], tree[2i+2])`.
`treeNode leaves i` is the value of `tree[i]` defined by that recurrence. -/

/-- Index of the left child in the array representation. -/
def leftChildIndex (i : Nat) : Nat := 2 * i + 1

/-- Index of the right child in the array representation. -/
def rightChildIndex (i : Nat) : Nat := 2 * i + 2

/-- Index of the parent in the array representation. -/
def parentIndex (i : Nat) : Nat := (i - 1) / 2

/-- Index of the sibling in the array representation
(`i - (-1) ** (i % 2)` in the source). -/
def siblingIndex (i : Nat) : Nat := if i % 2 = 1 then i + 1 else i - 1

/-- Value of array slot `i` of the tree `makeMerkleTree leaves` builds:
slots from `leaves.length - 1` up hold the leaves in reverse order, and
each lower slot hashes its two children. -/
def treeNode (keccak : Bytes → Bytes) (leaves : List Bytes) (i : Nat) : Bytes :=
  if h : leaves.length - 1 ≤ i then
    leaves.getD (2 * leaves.length - 2 - i) []
  else
    hashPair keccak (treeNode keccak leaves (leftChildIndex i))
      (treeNode keccak leaves (rightChildIndex i))
termination_by 2 * leaves.length - i
decreasing_by
  · simp only [leftChildIndex]; omega
  · simp only [rightChildIndex]; omega

/-- The full array `makeMerkleTree leaves` produces, as a list of slot
values (length `2 * leaves.length - 1`). -/
def makeMerkleTree (keccak : Bytes → Bytes) (leaves : List Bytes) : List Bytes :=
  (List.range (2 * leaves.length - 1)).map (treeNode keccak leaves)

/-- Sibling path from array slot `j` up to (excluding) the root: the
`getProof` loop of OpenZeppelin merkle-tree
(`while (j > 0) { proof.push(tree[siblingIndex(j)]); j = parentIndex(j); }`). -/
def getProofFromIndex (keccak : Bytes → Bytes) (leaves : List Bytes) (j : Nat) :
    List Bytes :=
  if j = 0 then []
  else treeNode keccak leaves (siblingIndex j) ::
    getProofFromIndex keccak leaves (parentIndex j)
termination_by j
decreasing_by
  simp only [parentIndex]; omega

/-- Proof verification fold of `MerkleProof.processProof` (used by
`MerkleProof.verify` in the onchain contract and by `processProof` of the
offchain library): hash the running value with each proof element, sorted
pair at every step. -/
def processProof (keccak : Bytes → Bytes) (leaf : Bytes) (proof : List Bytes) :
    Bytes :=
  proof.foldl (hashPair keccak) leaf

/-- The key round-trip fact about the array tree: folding the sibling path
of any slot `j` onto the value at `j` reconstructs the root slot. -/
theorem processProof_getProofFromIndex (keccak : Bytes → Bytes)
    (leaves : List Bytes) (j : Nat) (hj : j < 2 * leaves.length - 1) :
    processProof keccak (treeNode keccak leaves j)
      (getProofFromIndex keccak leaves j) = treeNode keccak leaves 0 := by
  induction j using Nat.strong_induction_on with
  | _ j ih =>
    by_cases h0 : j = 0
    · subst h0
      rw [getProofFromIndex]
      simp [processProof]
    · rw [getProofFromIndex]
      simp only [h0, if_false]
      unfold processProof at *
      rw [List.foldl_cons]
      have hstep : hashPair keccak (treeNode keccak leaves j)
          (treeNode keccak leaves (siblingIndex j))
          = treeNode keccak leaves (parentIndex j) := by
        have hp : parentIndex j < leaves.length - 1 := by
          simp only [parentIndex]; omega
        conv_rhs => rw [treeNode]
        rw [dif_neg (Nat.not_le.mpr hp)]
        by_cases hodd : j % 2 = 1
        · have hsib : siblingIndex j = j + 1 := by
            simp [siblingIndex, hodd]
          have hL : leftChildIndex (parentIndex j) = j := by
            simp only [leftChildIndex, parentIndex]; omega
          have hR : rightChildIndex (parentIndex j) = j + 1 := by
            simp only [rightChildIndex, parentIndex]; omega
          rw [hsib, hL, hR]
        · have hsib : siblingIndex j = j - 1 := by
            simp [siblingIndex, hodd]
          have hL : leftChildIndex (parentIndex j) = j - 1 := by
            simp only [leftChildIndex, parentIndex]; omega
          have hR : rightChildIndex (parentIndex j) = j := by
            simp only [rightChildIndex, parentIndex]; omega
          rw [hsib, hL, hR, hashPair_comm]
      rw [hstep]
      exact ih (parentIndex j) (by simp only [parentIndex]; omega)
        (by simp only [parentIndex]; omega)

/-! ## StandardMerkleTree.of and proof emission

`createMerkleTree` in `whitelistCommandService.mts` maps every validated
CSV row to `[getAddress(row.WhitelistAddress), parseEther(row.WhitelistAmount).toString()]`,
calls `StandardMerkleTree.of(values, ["address", "uint256"])`, and emits
`tree.root` plus, for each entry, `tree.getProof(index)` together with the
checksummed address and the wei amount string.  `StandardMerkleTree.of`
hashes each value with the double keccak of its ABI encoding, sorts the
hashed values by `compareBytes`, and builds the array tree over the sorted
hashes; entry `leafIndex` (position in the sorted order) sits at array
slot `2n - 2 - leafIndex`. -/

/-- One `(address, uint256)` tuple passed to `StandardMerkleTree.of`:
the checksummed address string and the base-10 wei amount string. -/
structure LeafValue where
  addr : String
  amountWei : String
deriving DecidableEq, Inhabited, Repr

/-- Double-keccak leaf hash
`keccak256(keccak256(abi_encode(address, amountWei)))` over an abstract
ABI encoder (`standardLeafHash` of the offchain library, bit-matching the
onchain `keccak256(bytes.concat(keccak256(abi.encode(...))))`). -/
def standardLeafHash (keccak : Bytes → Bytes) (abiEncode : String → String → Bytes)
    (v : LeafValue) : Bytes :=
  keccak (keccak (abiEncode v.addr v.amountWei))

/-- Values paired with their leaf hashes, in CSV order
(`hashedValues` in `StandardMerkleTree.of`). -/
def hashedValues (keccak : Bytes → Bytes) (abiEncode : String → String → Bytes)
    (values : List LeafValue) : List (LeafValue × Bytes) :=
  values.map (fun v => (v, standardLeafHash keccak abiEncode v))

/-- Insert one hashed value into an already sorted list, ascending by
`compareBytes` on the hash. -/
def insertByHash (p : LeafValue × Bytes) :
    List (LeafValue × Bytes) → List (LeafValue × Bytes)
  | [] => [p]
  | q :: qs =>
      if compareBytes p.2 q.2 = .gt then q :: insertByHash p qs else p :: q :: qs

/-- Sort the hashed values ascending by `compareBytes` on the hash
(`hashedValues.sort((a, b) => compareBytes(a.hash, b.hash))`). -/
def sortHashedValues (l : List (LeafValue × Bytes)) : List (LeafValue × Bytes) :=
  l.foldr insertByHash []

theorem length_insertByHash (p : LeafValue × Bytes) (l : List (LeafValue × Bytes)) :
    (insertByHash p l).length = l.length + 1 := by
  induction l with
  | nil => rfl
  | cons q qs ih =>
      unfold insertByHash
      by_cases h : compareBytes p.2 q.2 = .gt <;> simp [h, ih]

theorem length_sortHashedValues (l : List (LeafValue × Bytes)) :
    (sortHashedValues l).length = l.length := by
  induction l with
  | nil => rfl
  | cons q qs ih =>
      simp only [sortHashedValues, List.foldr_cons] at *
      rw [length_insertByHash, ih, List.length_cons]

theorem mem_insertByHash {x p : LeafValue × Bytes} {l : List (LeafValue × Bytes)}
    (h : x ∈ insertByHash p l) : x = p ∨ x ∈ l := by
  induction l with
  | nil => simpa [insertByHash] using h
  | cons q qs ih =>
      unfold insertByHash at h
      by_cases hc : compareBytes p.2 q.2 = .gt
      · simp only [hc, if_true, List.mem_cons] at h
        rcases h with h | h
        · exact Or.inr (by simp [h])
        · rcases ih h with h' | h'
          · exact Or.inl h'
          · exact Or.inr (by simp [h'])
      · simp only [hc, if_false, List.mem_cons] at h
        rcases h with h | h | h
        · exact Or.inl h
        · exact Or.inr (by simp [h])
        · exact Or.inr (by simp [h])

theorem mem_sortHashedValues {x : LeafValue × Bytes} {l : List (LeafValue × Bytes)}
    (h : x ∈ sortHashedValues l) : x ∈ l := by
  induction l with
  | nil => simp [sortHashedValues] at h
  | cons q qs ih =>
      simp only [sortHashedValues, List.foldr_cons] at h ih
      rcases mem_insertByHash h with h' | h'
      · simp [h']
      · simp [ih h']

/-- One emitted `MerkleProofRecord`: the checksummed address, the wei
amount string, and the sibling-path proof (stored by the service as the
comma-joined `0x`-hex rendering of exactly these 32-byte elements). -/
structure MerkleProofEntry where
  addr : String
  amountWei : String
  proof : List Bytes
deriving DecidableEq, Inhabited, Repr

/-- Leaves of the array tree: the sorted leaf hashes. -/
def treeLeaves (keccak : Bytes → Bytes) (abiEncode : String → String → Bytes)
    (values : List LeafValue) : List Bytes :=
  (sortHashedValues (hashedValues keccak abiEncode values)).map Prod.snd

/-- Root emitted by `createMerkleTree` (`tree.root`). -/
def merkleRootOf (keccak : Bytes → Bytes) (abiEncode : String → String → Bytes)
    (values : List LeafValue) : Bytes :=
  treeNode keccak (treeLeaves keccak abiEncode values) 0

/-- Proof records emitted by `createMerkleTree`: one per entry, the entry
at sorted position `i` carrying the sibling path of array slot
`2n - 2 - i`.  (The source iterates `tree.entries()` in original CSV
order; the emitted multiset of records is the same.) -/
def emittedProofs (keccak : Bytes → Bytes) (abiEncode : String → String → Bytes)
    (values : List LeafValue) : List MerkleProofEntry :=
  let sorted := sortHashedValues (hashedValues keccak abiEncode values)
  let leaves := sorted.map Prod.snd
  (List.range sorted.length).map (fun i =>
    { addr := (sorted.getD i default).1.addr
      amountWei := (sorted.getD i default).1.amountWei
      proof := getProofFromIndex keccak leaves (2 * leaves.length - 2 - i) })

/-- Checksummed rendering of the zero address (its 40 hex digits have no
letters, so the checksummed and lowercase forms coincide). -/
def ZeroAddressString : String := "0x0000000000000000000000000000000000000000"

/-- Membership check of the onchain `MerkleProof.verify`. -/
def merkleProofVerify (keccak : Bytes → Bytes) (proof : List Bytes)
    (root leaf : Bytes) : Bool :=
  decide (processProof keccak leaf proof = root)

/-- The onchain `MerkleTreeWhitelist.isWhitelistedFor`: reject the zero
address, recompute the double-keccak leaf from the supplied address and
wei amount, and verify the proof against the stored root (reverts are
modelled as `.error` with the require message). -/
def isWhitelistedFor (keccak : Bytes → Bytes) (abiEncode : String → String → Bytes)
    (merkleRoot : Bytes) (whitelistAddress : String) (whitelistAmountWei : String)
    (proof : List Bytes) : Except String Bool :=
  if whitelistAddress = ZeroAddressString then .error "MTWL: zero address"
  else if merkleProofVerify keccak proof merkleRoot
      (keccak (keccak (abiEncode whitelistAddress whitelistAmountWei))) then
    .ok true
  else .error "MTWL: invalid proof"

theorem treeNode_leafSlot (keccak : Bytes → Bytes) (leaves : List Bytes)
    (j : Nat) (h : leaves.length - 1 ≤ j) :
    treeNode keccak leaves j = leaves.getD (2 * leaves.length - 2 - j) [] := by
  rw [treeNode, dif_pos h]

theorem snd_mem_hashedValues {keccak : Bytes → Bytes}
    {abiEncode : String → String → Bytes} {values : List LeafValue}
    {p : LeafValue × Bytes} (h : p ∈ hashedValues keccak abiEncode values) :
    p.2 = standardLeafHash keccak abiEncode p.1 ∧ p.1 ∈ values := by
  simp only [hashedValues, List.mem_map] at h
  obtain ⟨v, hv, hp⟩ := h
  subst hp
  exact ⟨rfl, hv⟩

/-- C1: for every validated whitelist of `1 ≤ N ≤ 100000` entries, the
Merkle builder inside `createMerkleTree` emits one proof record per entry
and a root such that the onchain verifier, recomputing the double-keccak
leaf from the record's checksummed address and wei amount and folding the
sorted-pair keccak over the record's proof, accepts every emitted record
against the emitted root. -/
theorem createMerkleTree_allProofsVerify
    (keccak : Bytes → Bytes) (abiEncode : String → String → Bytes)
    (values : List LeafValue)
    (h1 : 1 ≤ values.length) (h2 : values.length ≤ 100000)
    (h0 : ∀ v ∈ values, v.addr ≠ ZeroAddressString) :
    (emittedProofs keccak abiEncode values).length = values.length ∧
    ∀ i (hi : i < (emittedProofs keccak abiEncode values).length),
      isWhitelistedFor keccak abiEncode (merkleRootOf keccak abiEncode values)
        ((emittedProofs keccak abiEncode values).get ⟨i, hi⟩).addr
        ((emittedProofs keccak abiEncode values).get ⟨i, hi⟩).amountWei
        ((emittedProofs keccak abiEncode values).get ⟨i, hi⟩).proof
        = .ok true := by
  have hn : (sortHashedValues (hashedValues keccak abiEncode values)).length
      = values.length := by
    rw [length_sortHashedValues]
    simp [hashedValues]
  have hlen : (emittedProofs keccak abiEncode values).length = values.length := by
    simp [emittedProofs, hn]
  refine ⟨hlen, ?_⟩
  intro i hi
  have hi' : i < (sortHashedValues (hashedValues keccak abiEncode values)).length := by
    rw [hn]; rw [hlen] at hi; exact hi
  have hleavesLen :
      ((sortHashedValues (hashedValues keccak abiEncode values)).map Prod.snd).length
      = values.length := by
    rw [List.length_map, hn]
  have hrec : (emittedProofs keccak abiEncode values).get ⟨i, hi⟩ =
      { addr := ((sortHashedValues (hashedValues keccak abiEncode values)).get
          ⟨i, hi'⟩).1.addr
        amountWei := ((sortHashedValues (hashedValues keccak abiEncode values)).get
          ⟨i, hi'⟩).1.amountWei
        proof := getProofFromIndex keccak
          ((sortHashedValues (hashedValues keccak abiEncode values)).map Prod.snd)
          (2 * ((sortHashedValues (hashedValues keccak abiEncode values)).map
            Prod.snd).length - 2 - i) } := by
    simp [emittedProofs, List.getElem?_eq_getElem hi']
  set sorted := sortHashedValues (hashedValues keccak abiEncode values) with hsortedDef
  set leaves := sorted.map Prod.snd with hleavesDef
  have hmem : sorted.get ⟨i, hi'⟩ ∈ hashedValues keccak abiEncode values := by
    apply mem_sortHashedValues
    exact List.get_mem sorted i hi'
  obtain ⟨hhash, hvalmem⟩ := snd_mem_hashedValues hmem
  have haddr : (sorted.get ⟨i, hi'⟩).1.addr ≠ ZeroAddressString :=
    h0 _ hvalmem
  rw [hrec]
  simp only [isWhitelistedFor, if_neg haddr]
  have hleaf : keccak (keccak (abiEncode (sorted.get ⟨i, hi'⟩).1.addr
      (sorted.get ⟨i, hi'⟩).1.amountWei)) = (sorted.get ⟨i, hi'⟩).2 := by
    rw [hhash]; rfl
  have hj : 2 * leaves.length - 2 - i < 2 * leaves.length - 1 := by
    rw [hleavesDef, hleavesLen]; omega
  have hcore := processProof_getProofFromIndex keccak leaves
    (2 * leaves.length - 2 - i) hj
  have hslot : treeNode keccak leaves (2 * leaves.length - 2 - i)
      = (sorted.get ⟨i, hi'⟩).2 := by
    rw [treeNode_leafSlot keccak leaves _ (by rw [hleavesDef, hleavesLen]; omega)]
    have hsub : 2 * leaves.length - 2 - (2 * leaves.length - 2 - i) = i := by
      rw [hleavesDef, hleavesLen]; omega
    rw [hsub]
    have hiL : i < leaves.length := by rw [hleavesDef, hleavesLen]; omega
    rw [List.getD_eq_getElem _ _ hiL]
    simp [hleavesDef, List.get_eq_getElem]
  have hverify : merkleProofVerify keccak
      (getProofFromIndex keccak leaves (2 * leaves.length - 2 - i))
      (merkleRootOf keccak abiEncode values)
      (keccak (keccak (abiEncode (sorted.get ⟨i, hi'⟩).1.addr
        (sorted.get ⟨i, hi'⟩).1.amountWei))) = true := by
    simp only [merkleProofVerify, decide_eq_true_eq]
    rw [hleaf, ← hslot]
    rw [hcore]
    rfl
  rw [hverify]
  simp

/-! ## Validation constants and string predicates

The constants live in `iWhitelistApplicationService.mts` and
`iDynamoDbService.mts`, which are not among the provided sources; their
values are modelled from the spec (§6 validation constants). -/

/-- Decidable equality for fallible outcomes, used by concrete
witnesses. -/
instance {ε α : Type} [DecidableEq ε] [DecidableEq α] :
    DecidableEq (Except ε α) := fun a b =>
  match a, b with
  | .ok x, .ok y =>
      if h : x = y then .isTrue (by rw [h]) else .isFalse (by intro hc; cases hc; exact h rfl)
  | .error x, .error y =>
      if h : x = y then .isTrue (by rw [h]) else .isFalse (by intro hc; cases hc; exact h rfl)
  | .ok _, .error _ => .isFalse (by intro hc; cases hc)
  | .error _, .ok _ => .isFalse (by intro hc; cases hc)

/-- Retry schedule constants of `dynamoDbService.mts`. -/
def BatchWriteDefaultExponentialFactor : Nat := 2

/-- Default retry budget. -/
def BatchWriteDefaultMaxRetries : Nat := 3

/-- Base sleep in milliseconds. -/
def BatchWriteDefaultMinTimeoutMs : Nat := 10

/-- Items per batch write. -/
def BatchWriteMaxItems : Nat := 25

/-- The `chunkArray` generator: successive slices of `stride` elements
(`stride` is always `BatchWriteMaxItems` or `TransactWriteMaxItems` at
the call sites; the zero case never occurs and is mapped to no chunks). -/
def chunkArray {α : Type} (stride : Nat) (l : List α) : List (List α) :=
  match l with
  | [] => []
  | x :: xs =>
      if stride = 0 then []
      else (x :: xs).take stride :: chunkArray stride ((x :: xs).drop stride)
termination_by l.length
decreasing_by
  simp only [List.length_drop, List.length_cons]
  omega

/-- One send of the unprocessed-items loop: the submitted items, the
unprocessed-items response, the retry counter at the send, and the sleep
that follows it. -/
structure BatchAttempt (α : Type) where
  sent : List α
  unprocessed : List α
  retry : Nat
  sleptMs : Nat
deriving DecidableEq, Repr

/-- The delete adapter's read of the response,
`response.UnprocessedItems?.[tableName] ? ... : []`: the optional chain
turns an absent map or an absent table entry into the empty list. -/
def unprocessedOfResponse {α : Type} : Option (Option (List α)) → List α
  | some (some l) => l
  | _ => []

/-- The put adapter's read of the response,
`response.UnprocessedItems ? response.UnprocessedItems[tableName] : []`,
followed by the `unprocessedItems.length` dereference of its log line:
an absent map gives `[]`, a table entry gives that list, but a present
map without the table's entry leaves `unprocessedItems` undefined and
the dereference throws a `TypeError`. -/
def putUnprocessed {α : Type} : Option (Option (List α)) → Except Unit (List α)
  | none => .ok []
  | some none => .error ()
  | some (some l) => .ok l

/-- The do-while loop of `batchDeleteWrite` for one chunk: send, read
the unprocessed items through the optional chain, sleep
`10 * 2 ^ retryCount`, and repeat on the unprocessed items while any
remain and `retryCount <= maxRetries` after the increment. -/
def runBatchChunk {α : Type} (oracle : Nat → List α → Option (Option (List α)))
    (ctr : Nat) (items : List α) (retryCount maxRetries : Nat) :
    List (BatchAttempt α) :=
  let unproc := unprocessedOfResponse (oracle ctr items)
  let att : BatchAttempt α :=
    ⟨items, unproc, retryCount,
      BatchWriteDefaultMinTimeoutMs * BatchWriteDefaultExponentialFactor ^ retryCount⟩
  if h : 0 < unproc.length ∧ retryCount + 1 ≤ maxRetries then
    att :: runBatchChunk oracle (ctr + 1) unproc (retryCount + 1) maxRetries
  else [att]
termination_by maxRetries - retryCount
decreasing_by
  omega

/-- Sequential execution of the chunks of `batchDeleteWrite`, threading
the global send counter. -/
def runBatchChunks {α : Type}
    (oracle : Nat → List α → Option (Option (List α))) (ctr : Nat)
    (chunks : List (List α)) (maxRetries : Nat) : List (List (BatchAttempt α)) :=
  match chunks with
  | [] => []
  | c :: cs =>
      let run := runBatchChunk oracle ctr c 0 maxRetries
      run :: runBatchChunks oracle (ctr + run.length) cs maxRetries

/-- The do-while loop of `batchPutWrite` for one chunk: the same loop as
`runBatchChunk`, except that the response is read through
`putUnprocessed`, so the send whose response carries the map without the
table's entry aborts the loop with the `TypeError`. -/
def runPutChunk {α : Type} (oracle : Nat → List α → Option (Option (List α)))
    (ctr : Nat) (items : List α) (retryCount maxRetries : Nat) :
    Except Unit (List (BatchAttempt α)) :=
  (putUnprocessed (oracle ctr items)).bind (fun unproc =>
    let att : BatchAttempt α :=
      ⟨items, unproc, retryCount,
        BatchWriteDefaultMinTimeoutMs * BatchWriteDefaultExponentialFactor ^ retryCount⟩
    if h : 0 < unproc.length ∧ retryCount + 1 ≤ maxRetries then
      (runPutChunk oracle (ctr + 1) unproc (retryCount + 1) maxRetries).map
        (fun rest => att :: rest)
    else .ok [att])
termination_by maxRetries - retryCount
decreasing_by
  omega

/-- Sequential execution of the chunks of `batchPutWrite`: a chunk whose
loop throws aborts the remaining chunks and propagates the failure. -/
def runPutChunks {α : Type}
    (oracle : Nat → List α → Option (Option (List α))) (ctr : Nat)
    (chunks : List (List α)) (maxRetries : Nat) :
    Except Unit (List (List (BatchAttempt α))) :=
  match chunks with
  | [] => .ok []
  | c :: cs =>
      (runPutChunk oracle ctr c 0 maxRetries).bind (fun run =>
        (runPutChunks oracle (ctr + run.length) cs maxRetries).map
          (fun rest => run :: rest))

/-- The outcome of `batchPutWrite(tableName, pk, pkValue, records,
maxRetries)`: chunk the records by 25 and run the unprocessed-items loop
on each chunk.  Exhausted retries with remaining unprocessed items
surface no failure, but a response carrying `UnprocessedItems` as a map
without the table's entry throws the `TypeError` of the unguarded
`unprocessedItems.length` read. -/
def batchPutWrite {α : Type}
    (oracle : Nat → List α → Option (Option (List α)))
    (records : List α) (maxRetries : Nat) :
    Except Unit (List (List (BatchAttempt α))) :=
  runPutChunks oracle 0 (chunkArray BatchWriteMaxItems records) maxRetries

/-- The trace of `batchDeleteWrite(tableName, pk, pkValue, sortKeyName,
sortKeyValues, maxRetries)`: the same loop with delete requests in place
of put requests and the optional-chained read of the response, so the
call always returns its trace normally. -/
def batchDeleteWrite {α : Type}
    (oracle : Nat → List α → Option (Option (List α)))
    (sortKeyValues : List α) (maxRetries : Nat) : List (List (BatchAttempt α)) :=
  runBatchChunks oracle 0 (chunkArray BatchWriteMaxItems sortKeyValues) maxRetries

/-! ## Properties of the batch-write loop -/

theorem chunkArray_flatten {α : Type} (s : Nat) (hs : s ≠ 0) :
    ∀ (fuel : Nat) (l : List α), l.length ≤ fuel → (chunkArray s l).flatten = l := by
  intro fuel
  induction fuel with
  | zero =>
      intro l hl
      have : l = [] := List.eq_nil_of_length_eq_zero (by omega)
      subst this
      simp [chunkArray]
  | succ n ih =>
      intro l hl
      cases l with
      | nil => simp [chunkArray]
      | cons x xs =>
          rw [chunkArray]
          simp only [hs, if_false]
          rw [List.flatten_cons]
          rw [ih ((x :: xs).drop s)
            (by simp only [List.length_drop, List.length_cons] at hl ⊢; omega)]
          exact List.take_append_drop s (x :: xs)

theorem chunkArray_size {α : Type} (s : Nat) :
    ∀ (fuel : Nat) (l : List α), l.length ≤ fuel →
      ∀ c ∈ chunkArray s l, c.length ≤ s := by
  intro fuel
  induction fuel with
  | zero =>
      intro l hl c hc
      have : l = [] := List.eq_nil_of_length_eq_zero (by omega)
      subst this
      simp [chunkArray] at hc
  | succ n ih =>
      intro l hl c hc
      cases l with
      | nil => simp [chunkArray] at hc
      | cons x xs =>
          rw [chunkArray] at hc
          by_cases hs : s = 0
          · simp [hs] at hc
          · simp only [hs, if_false, List.mem_cons] at hc
            rcases hc with hc | hc
            · subst hc
              exact List.length_take_le s (x :: xs)
            · exact ih ((x :: xs).drop s)
                (by simp only [List.length_drop, List.length_cons] at hl ⊢; omega) c hc

/-- The step relation of the unprocessed-items loop: the next send is
exactly the unprocessed items of the previous one, with the retry counter
incremented. -/
def batchStep {α : Type} (a a2 : BatchAttempt α) : Prop :=
  a2.sent = a.unprocessed ∧ a2.retry = a.retry + 1

theorem runBatchChunk_head {α : Type}
    (oracle : Nat → List α → Option (Option (List α)))
    (ctr : Nat) (items : List α) (rc mr : Nat) :
    (runBatchChunk oracle ctr items rc mr).head? = some
      ⟨items, unprocessedOfResponse (oracle ctr items), rc,
        BatchWriteDefaultMinTimeoutMs * BatchWriteDefaultExponentialFactor ^ rc⟩ := by
  rw [runBatchChunk]
  split <;> simp

theorem getLast?_of_singleton {α : Type} (x : α) :
    ([x] : List α).getLast? = some x := rfl

theorem getLast?_of_cons_ne_nil {α : Type} (a : α) {l : List α} (h : l ≠ []) :
    (a :: l).getLast? = l.getLast? := by
  cases l with
  | nil => exact absurd rfl h
  | cons b bs => rw [List.getLast?_cons_cons]

theorem runBatchChunk_props {α : Type}
    (oracle : Nat → List α → Option (Option (List α))) :
    ∀ (fuel ctr : Nat) (items : List α) (rc mr : Nat), mr - rc ≤ fuel →
      (runBatchChunk oracle ctr items rc mr ≠ [] ∧
        List.Chain' batchStep (runBatchChunk oracle ctr items rc mr) ∧
        (∀ a ∈ runBatchChunk oracle ctr items rc mr,
          a.sleptMs = BatchWriteDefaultMinTimeoutMs *
            BatchWriteDefaultExponentialFactor ^ a.retry ∧
          a.unprocessed = unprocessedOfResponse (oracle (ctr + (a.retry - rc)) a.sent) ∧
          rc ≤ a.retry) ∧
        (∀ a, (runBatchChunk oracle ctr items rc mr).getLast? = some a →
          (a.unprocessed = [] ∨ mr < a.retry + 1)) ∧
        (runBatchChunk oracle ctr items rc mr).length ≤ 1 + (mr - rc)) := by
  intro fuel
  induction fuel with
  | zero =>
      intro ctr items rc mr hf
      rw [runBatchChunk]
      have hcond :
          ¬ (0 < (unprocessedOfResponse (oracle ctr items)).length ∧ rc + 1 ≤ mr) := by
        intro h
        omega
      rw [dif_neg hcond]
      refine ⟨by simp, by simp [List.chain'_singleton], ?_, ?_, by simp⟩
      · intro a ha
        simp only [List.mem_singleton] at ha
        subst ha
        simp
      · intro a ha
        rw [getLast?_of_singleton, Option.some_inj] at ha
        subst ha
        right
        simp only []
        omega
  | succ n ih =>
      intro ctr items rc mr hf
      rw [runBatchChunk]
      by_cases hcond : 0 < (unprocessedOfResponse (oracle ctr items)).length ∧ rc + 1 ≤ mr
      · rw [dif_pos hcond]
        obtain ⟨hne, hchain, hmem, hlast, hlen⟩ :=
          ih (ctr + 1) (unprocessedOfResponse (oracle ctr items)) (rc + 1) mr (by omega)
        refine ⟨by simp, ?_, ?_, ?_, ?_⟩
        · rw [List.chain'_cons']
          refine ⟨?_, hchain⟩
          intro b hb
          rw [runBatchChunk_head] at hb
          cases hb
          exact ⟨rfl, rfl⟩
        · intro a ha
          rcases List.mem_cons.mp ha with ha | ha
          · subst ha
            simp
          · obtain ⟨h1, h2, h3⟩ := hmem a ha
            refine ⟨h1, ?_, by omega⟩
            have harg : ctr + 1 + (a.retry - (rc + 1)) = ctr + (a.retry - rc) := by
              omega
            rw [h2, harg]
        · intro a ha
          rw [getLast?_of_cons_ne_nil _ hne] at ha
          exact hlast a ha
        · simp only [List.length_cons]
          omega
      · rw [dif_neg hcond]
        refine ⟨by simp, by simp [List.chain'_singleton], ?_, ?_, by simp⟩
        · intro a ha
          simp only [List.mem_singleton] at ha
          subst ha
          simp
        · intro a ha
          rw [getLast?_of_singleton, Option.some_inj] at ha
          subst ha
          by_cases hl : (unprocessedOfResponse (oracle ctr items)).length = 0
          · left
            exact List.eq_nil_of_length_eq_zero hl
          · right
            simp only []
            omega

theorem runBatchChunks_heads {α : Type}
    (oracle : Nat → List α → Option (Option (List α))) (mr : Nat) :
    ∀ (chunks : List (List α)) (ctr : Nat),
      (runBatchChunks oracle ctr chunks mr).map
        (fun run => (run.headD ⟨[], [], 0, 0⟩).sent) = chunks := by
  intro chunks
  induction chunks with
  | nil => intro ctr; simp [runBatchChunks]
  | cons c cs ih =>
      intro ctr
      rw [runBatchChunks]
      simp only [List.map_cons, List.cons.injEq]
      constructor
      · have h := runBatchChunk_head oracle ctr c 0 mr
        rw [List.headD_eq_head?_getD, h]
        rfl
      · exact ih _

theorem runBatchChunks_runs {α : Type}
    (oracle : Nat → List α → Option (Option (List α))) (mr : Nat) :
    ∀ (chunks : List (List α)) (ctr : Nat),
      ∀ run ∈ runBatchChunks oracle ctr chunks mr,
        ∃ base c, c ∈ chunks ∧ run = runBatchChunk oracle base c 0 mr := by
  intro chunks
  induction chunks with
  | nil => intro ctr run h; simp [runBatchChunks] at h
  | cons c cs ih =>
      intro ctr run h
      rw [runBatchChunks] at h
      rcases List.mem_cons.mp h with h | h
      · exact ⟨ctr, c, by simp, h⟩
      · obtain ⟨base, c2, hc2, hrun⟩ := ih _ run h
        exact ⟨base, c2, by simp [hc2], hrun⟩

theorem exceptBind_ok {ε α β : Type} (a : α) (f : α → Except ε β) :
    (Except.ok a : Except ε α).bind f = f a := rfl

theorem exceptBind_error {ε α β : Type} (e : ε) (f : α → Except ε β) :
    (Except.error e : Except ε α).bind f = .error e := rfl

theorem exceptMap_ok {ε α β : Type} (f : α → β) (a : α) :
    (Except.ok a : Except ε α).map f = .ok (f a) := rfl

theorem exceptMap_error {ε α β : Type} (f : α → β) (e : ε) :
    (Except.error e : Except ε α).map f = .error e := rfl

/-- The two response reads agree on every response except a present map
without the table's entry, where the put adapter's read throws. -/
theorem putUnprocessed_cases {α : Type} (resp : Option (Option (List α))) :
    (resp = some none ∧ putUnprocessed resp = .error ()) ∨
      putUnprocessed resp = .ok (unprocessedOfResponse resp) := by
  rcases resp with _ | u
  · right
    rfl
  · rcases u with _ | l
    · left
      exact ⟨rfl, rfl⟩
    · right
      rfl

/-- When no response carries the map-without-entry shape, the put loop
on a chunk returns the delete loop's trace. -/
theorem runPutChunk_guarded {α : Type}
    (oracle : Nat → List α → Option (Option (List α)))
    (hno : ∀ i l, oracle i l ≠ some none) :
    ∀ (fuel ctr : Nat) (items : List α) (rc mr : Nat), mr - rc ≤ fuel →
      runPutChunk oracle ctr items rc mr
        = .ok (runBatchChunk oracle ctr items rc mr) := by
  intro fuel
  induction fuel with
  | zero =>
      intro ctr items rc mr hf
      rw [runPutChunk, runBatchChunk]
      rcases putUnprocessed_cases (oracle ctr items) with ⟨hsn, _⟩ | hpu
      · exact absurd hsn (hno ctr items)
      · rw [hpu]
        simp only [exceptBind_ok]
        have hcond :
            ¬ (0 < (unprocessedOfResponse (oracle ctr items)).length ∧ rc + 1 ≤ mr) := by
          intro h
          omega
        rw [dif_neg hcond, dif_neg hcond]
  | succ n ih =>
      intro ctr items rc mr hf
      rw [runPutChunk, runBatchChunk]
      rcases putUnprocessed_cases (oracle ctr items) with ⟨hsn, _⟩ | hpu
      · exact absurd hsn (hno ctr items)
      · rw [hpu]
        simp only [exceptBind_ok]
        by_cases hcond :
            0 < (unprocessedOfResponse (oracle ctr items)).length ∧ rc + 1 ≤ mr
        · rw [dif_pos hcond, dif_pos hcond,
            ih (ctr + 1) (unprocessedOfResponse (oracle ctr items)) (rc + 1) mr
              (by omega)]
          simp only [exceptMap_ok]
        · rw [dif_neg hcond, dif_neg hcond]

/-- Conversely, whenever the put loop on a chunk returns normally, its
trace is the delete loop's. -/
theorem runPutChunk_ok_eq {α : Type}
    (oracle : Nat → List α → Option (Option (List α))) :
    ∀ (fuel ctr : Nat) (items : List α) (rc mr : Nat), mr - rc ≤ fuel →
      ∀ r, runPutChunk oracle ctr items rc mr = .ok r →
        r = runBatchChunk oracle ctr items rc mr := by
  intro fuel
  induction fuel with
  | zero =>
      intro ctr items rc mr hf r hok
      rw [runPutChunk] at hok
      rw [runBatchChunk]
      rcases putUnprocessed_cases (oracle ctr items) with ⟨_, hpu⟩ | hpu
      · rw [hpu, exceptBind_error] at hok
        exact absurd hok (by simp)
      · rw [hpu] at hok
        simp only [exceptBind_ok] at hok
        have hcond :
            ¬ (0 < (unprocessedOfResponse (oracle ctr items)).length ∧ rc + 1 ≤ mr) := by
          intro h
          omega
        rw [dif_neg hcond] at hok
        rw [dif_neg hcond]
        injection hok with hok
        exact hok.symm
  | succ n ih =>
      intro ctr items rc mr hf r hok
      rw [runPutChunk] at hok
      rw [runBatchChunk]
      rcases putUnprocessed_cases (oracle ctr items) with ⟨_, hpu⟩ | hpu
      · rw [hpu, exceptBind_error] at hok
        exact absurd hok (by simp)
      · rw [hpu] at hok
        simp only [exceptBind_ok] at hok
        by_cases hcond :
            0 < (unprocessedOfResponse (oracle ctr items)).length ∧ rc + 1 ≤ mr
        · rw [dif_pos hcond] at hok
          rw [dif_pos hcond]
          rcases hrec : runPutChunk oracle (ctr + 1)
              (unprocessedOfResponse (oracle ctr items)) (rc + 1) mr with e | rest
          · rw [hrec, exceptMap_error] at hok
            exact absurd hok (by simp)
          · simp only [hrec, exceptMap_ok] at hok
            injection hok with hok
            rw [← hok, ih (ctr + 1) _ (rc + 1) mr (by omega) rest hrec]
        · rw [dif_neg hcond] at hok
          rw [dif_neg hcond]
          injection hok with hok
          exact hok.symm

/-- Chunk-sequencing of `runPutChunk_guarded`. -/
theorem runPutChunks_guarded {α : Type}
    (oracle : Nat → List α → Option (Option (List α)))
    (hno : ∀ i l, oracle i l ≠ some none) (mr : Nat) :
    ∀ (chunks : List (List α)) (ctr : Nat),
      runPutChunks oracle ctr chunks mr
        = .ok (runBatchChunks oracle ctr chunks mr) := by
  intro chunks
  induction chunks with
  | nil =>
      intro ctr
      rfl
  | cons c cs ih =>
      intro ctr
      rw [runPutChunks, runBatchChunks,
        runPutChunk_guarded oracle hno mr ctr c 0 mr (by omega)]
      simp only [exceptBind_ok]
      rw [ih (ctr + (runBatchChunk oracle ctr c 0 mr).length)]
      simp only [exceptMap_ok]

/-- Chunk-sequencing of `runPutChunk_ok_eq`. -/
theorem runPutChunks_ok_eq {α : Type}
    (oracle : Nat → List α → Option (Option (List α))) (mr : Nat) :
    ∀ (chunks : List (List α)) (ctr : Nat)
      (t : List (List (BatchAttempt α))),
      runPutChunks oracle ctr chunks mr = .ok t →
        t = runBatchChunks oracle ctr chunks mr := by
  intro chunks
  induction chunks with
  | nil =>
      intro ctr t h
      rw [runPutChunks] at h
      injection h with h
      rw [← h]
      rfl
  | cons c cs ih =>
      intro ctr t h
      rw [runPutChunks] at h
      rcases hrp : runPutChunk oracle ctr c 0 mr with e | run
      · rw [hrp, exceptBind_error] at h
        exact absurd h (by simp)
      · rw [hrp] at h
        simp only [exceptBind_ok] at h
        rcases hrc : runPutChunks oracle (ctr + run.length) cs mr with e | rest
        · rw [hrc, exceptMap_error] at h
          exact absurd h (by simp)
        · simp only [hrc, exceptMap_ok] at h
          injection h with h
          have hrun : run = runBatchChunk oracle ctr c 0 mr :=
            runPutChunk_ok_eq oracle mr ctr c 0 mr (by omega) run hrp
          have hrest : rest = runBatchChunks oracle (ctr + run.length) cs mr :=
            ih (ctr + run.length) rest hrc
          rw [runBatchChunks, ← h, hrest, hrun]

/-- C5: the batch-write adapters chunk their input into sequential
slices of at most 25 items, and for each chunk run the unprocessed-items
loop: every later send is exactly the previous unprocessed-items
response, the sleep after the send at retry counter `i` is `10 * 2 ^ i`
milliseconds, the loop exits only when the response is empty or the
incremented retry counter exceeds `maxRetries` (default 3, so at most
`maxRetries + 1` sends per chunk), and exhausted retries surface no
failure.  `batchDeleteWrite`, whose optional-chained read turns every
unprocessed-free response shape into the empty list, always returns its
full trace; `batchPutWrite` returns the same trace whenever no response
carries `UnprocessedItems` as a present map without the table's entry,
and whenever it returns normally at all its trace is the delete
adapter's — on the map-without-entry shape it instead throws the
`TypeError` of its unguarded `unprocessedItems.length` read. -/
theorem batchWrite_unprocessedLoop {α : Type}
    (oracle : Nat → List α → Option (Option (List α)))
    (records : List α) (maxRetries : Nat) :
    BatchWriteDefaultMaxRetries = 3 ∧
    (chunkArray BatchWriteMaxItems records).flatten = records ∧
    (∀ c ∈ chunkArray BatchWriteMaxItems records, c.length ≤ 25) ∧
    (batchDeleteWrite oracle records maxRetries).map
      (fun run => (run.headD ⟨[], [], 0, 0⟩).sent)
      = chunkArray BatchWriteMaxItems records ∧
    (∀ run ∈ batchDeleteWrite oracle records maxRetries,
      run ≠ [] ∧
      List.Chain' batchStep run ∧
      (∀ a, run.head? = some a → a.retry = 0) ∧
      (∃ base, ∀ a ∈ run,
        a.sleptMs = 10 * 2 ^ a.retry ∧
        a.unprocessed = unprocessedOfResponse (oracle (base + a.retry) a.sent)) ∧
      (∀ a, run.getLast? = some a → (a.unprocessed = [] ∨ maxRetries < a.retry + 1)) ∧
      run.length ≤ maxRetries + 1) ∧
    ((∀ i l, oracle i l ≠ some none) →
      batchPutWrite oracle records maxRetries
        = .ok (batchDeleteWrite oracle records maxRetries)) ∧
    (∀ t, batchPutWrite oracle records maxRetries = .ok t →
      t = batchDeleteWrite oracle records maxRetries) := by
  refine ⟨rfl, ?_, ?_, ?_, ?_, ?_, ?_⟩
  · exact chunkArray_flatten BatchWriteMaxItems (by decide) records.length records le_rfl
  · intro c hc
    exact chunkArray_size BatchWriteMaxItems records.length records le_rfl c hc
  · exact runBatchChunks_heads oracle maxRetries _ 0
  · intro run hrun
    obtain ⟨base, c, _, hrun'⟩ :=
      runBatchChunks_runs oracle maxRetries _ 0 run hrun
    subst hrun'
    obtain ⟨hne, hchain, hmem, hlast, hlen⟩ :=
      runBatchChunk_props oracle maxRetries base c 0 maxRetries (by omega)
    refine ⟨hne, hchain, ?_, ⟨base, ?_⟩, hlast, by omega⟩
    · intro a ha
      rw [runBatchChunk_head] at ha
      cases ha
      rfl
    · intro a ha
      obtain ⟨h1, h2, _⟩ := hmem a ha
      exact ⟨h1, by rw [h2, Nat.sub_zero]⟩
  · intro hno
    exact runPutChunks_guarded oracle hno maxRetries _ 0
  · intro t ht
    exact runPutChunks_ok_eq oracle maxRetries _ 0 t ht

/-! ## Character-level facts about the canonicalization -/

/-- Hash instance for witnesses: any function works for the round-trip
properties. -/
def wKeccak : Bytes → Bytes := fun bs => 7 :: bs

/-- ABI-encoder instance for witnesses. -/
def wAbiEncode : String → String → Bytes := fun a b => [a.length, b.length]

/-- Value list for the C1 witness. -/
def wValues : List LeafValue :=
  [⟨"0x1111111111111111111111111111111111111111", "1000000000000000000"⟩,
   ⟨"0x2222222222222222222222222222222222222222", "2500000000000000000"⟩,
   ⟨"0x3333333333333333333333333333333333333333", "3"⟩]

theorem createMerkleTree_allProofsVerify_witness :
    (1 ≤ wValues.length ∧ wValues.length ≤ 100000 ∧
      ∀ v ∈ wValues, v.addr ≠ ZeroAddressString) ∧
    ((emittedProofs wKeccak wAbiEncode wValues).length = wValues.length ∧
      ∀ i (hi : i < (emittedProofs wKeccak wAbiEncode wValues).length),
        isWhitelistedFor wKeccak wAbiEncode
          (merkleRootOf wKeccak wAbiEncode wValues)
          ((emittedProofs wKeccak wAbiEncode wValues).get ⟨i, hi⟩).addr
          ((emittedProofs wKeccak wAbiEncode wValues).get ⟨i, hi⟩).amountWei
          ((emittedProofs wKeccak wAbiEncode wValues).get ⟨i, hi⟩).proof
          = .ok true) :=
  ⟨⟨by decide, by decide, by decide⟩,
    createMerkleTree_allProofsVerify wKeccak wAbiEncode wValues
      (by decide) (by decide) (by decide)⟩

/-- Oracle used by the C5 witness: every response carries the table's
entry, reporting all but the first submitted item as unprocessed. -/
def wOracle : Nat → List Nat → Option (Option (List Nat)) :=
  fun _ l => some (some (l.drop 1))

theorem batchWrite_unprocessedLoop_witness :
    (∀ i l, wOracle i l ≠ some none) ∧
    batchPutWrite wOracle (List.range 30) 3
      = .ok (batchDeleteWrite wOracle (List.range 30) 3) ∧
    BatchWriteDefaultMaxRetries = 3 ∧
    (chunkArray BatchWriteMaxItems (List.range 30)).flatten = List.range 30 ∧
    (∀ c ∈ chunkArray BatchWriteMaxItems (List.range 30), c.length ≤ 25) ∧
    (batchDeleteWrite wOracle (List.range 30) 3).map
      (fun run => (run.headD ⟨[], [], 0, 0⟩).sent)
      = chunkArray BatchWriteMaxItems (List.range 30) ∧
    (∀ run ∈ batchDeleteWrite wOracle (List.range 30) 3,
      run ≠ [] ∧
      List.Chain' batchStep run ∧
      (∀ a, run.head? = some a → a.retry = 0) ∧
      (∃ base, ∀ a ∈ run,
        a.sleptMs = 10 * 2 ^ a.retry ∧
        a.unprocessed = unprocessedOfResponse (wOracle (base + a.retry) a.sent)) ∧
      (∀ a, run.getLast? = some a → (a.unprocessed = [] ∨ 3 < a.retry + 1)) ∧
      run.length ≤ 3 + 1) :=
  have hno : ∀ i l, wOracle i l ≠ some none := fun i l h => by simp [wOracle] at h
  have ht := batchWrite_unprocessedLoop wOracle (List.range 30) 3
  ⟨hno, ht.2.2.2.2.2.1 hno, ht.1, ht.2.1, ht.2.2.1, ht.2.2.2.1, ht.2.2.2.2.1⟩

/-- Counterexample to the claim's uniform silent exit: with every
response carrying `UnprocessedItems` as a present map without the
table's entry (the provider's documented fully-processed response),
`batchDeleteWrite` exits its loop silently after one send, while
`batchPutWrite` on the same input throws the `TypeError` of its
unguarded `unprocessedItems.length` read instead of returning success
silently. -/
theorem batchPutWrite_emptyMap_typeError :
    batchDeleteWrite (fun _ _ => (some none : Option (Option (List Nat)))) [1] 3
      = [[⟨[1], [], 0, 10⟩]] ∧
    batchPutWrite (fun _ _ => (some none : Option (Option (List Nat)))) [1] 3
      = .error () := by
  have htake : ([1] : List Nat).take BatchWriteMaxItems = [1] := by decide
  have hdrop : ([1] : List Nat).drop BatchWriteMaxItems = [] := by decide
  have hch : chunkArray BatchWriteMaxItems [1] = [[1]] := by
    rw [chunkArray.eq_def]
    show (if BatchWriteMaxItems = 0 then [] else
      ([1] : List Nat).take BatchWriteMaxItems ::
        chunkArray BatchWriteMaxItems (([1] : List Nat).drop BatchWriteMaxItems)) = [[1]]
    rw [if_neg (by decide), htake, hdrop, chunkArray.eq_def]
  constructor
  · show runBatchChunks _ 0 (chunkArray BatchWriteMaxItems [1]) 3 = _
    rw [hch, runBatchChunks, runBatchChunk]
    norm_num [unprocessedOfResponse, runBatchChunks,
      BatchWriteDefaultMinTimeoutMs, BatchWriteDefaultExponentialFactor]
  · show runPutChunks _ 0 (chunkArray BatchWriteMaxItems [1]) 3 = _
    rw [hch, runPutChunks, runPutChunk]
    rfl

end MerklyticWhitelist
